import Mathlib

/-!
Verification development for the mkdocs-minify-plugin repository
(src/mkdocs_minify_plugin/plugin.py).

The plugin's logic is shallowly embedded below:
* Python `str.replace` (all occurrences, left to right, non-overlapping) is
  `pyReplace` on character lists;
* SHA-384 over UTF-8 bytes (`hashlib.sha384(data.encode("utf8")).hexdigest()`)
  is implemented from the FIPS 180-4 specification (`sha384HexStr`);
* the plugin class' methods `_minified_asset`, `_minify_extra_config`,
  `_minify` (a single file step), `_minify_html_page`, `on_post_page`,
  `on_post_template`, `on_pre_build` become the functions of the same names;
* the class-level dictionaries `path_to_hash` / `path_to_data` become an
  explicit `CacheState` threaded through the functions, and the module-level
  `DEFAULT_MINIFY_CONFIG` dictionary becomes part of an explicit
  `ProcessState`.
External minifier libraries (jsmin, csscompressor, tdewolff-minify) are
opaque string transforms and appear as function parameters.
-/

/-! ## Python string primitives on lists of characters -/

/-- Does the list `p` occur as a prefix of `s`?  (Explicit Boolean version.) -/
def startsWithList : List Char → List Char → Bool
  | [], _ => true
  | _ :: _, [] => false
  | p :: ps, c :: cs => p == c && startsWithList ps cs

/-- Does `pat` occur as a contiguous sublist of `s`?  `occursIn [] s = true`. -/
def occursIn (pat : List Char) : List Char → Bool
  | [] => pat.isEmpty
  | c :: rest => startsWithList pat (c :: rest) || occursIn pat rest

/-- Fuel-driven worker for `pyReplace` (structural recursion on the fuel, so
that the kernel can evaluate it; with fuel at least the length of the string
the fuel never runs out). -/
def pyReplaceF (pat rep : List Char) : Nat → List Char → List Char
  | _, [] => []
  | 0, s => s
  | fuel + 1, c :: rest =>
    if startsWithList pat (c :: rest) && !pat.isEmpty then
      rep ++ pyReplaceF pat rep fuel ((c :: rest).drop pat.length)
    else
      c :: pyReplaceF pat rep fuel rest

/-- Python `s.replace(pat, rep)`: replace every non-overlapping occurrence of
`pat` in `s` by `rep`, scanning left to right.  (For empty `pat` this model
returns `s` unchanged; the plugin only ever uses nonempty patterns.) -/
def pyReplace (pat rep s : List Char) : List Char :=
  pyReplaceF pat rep s.length s

/-- Python `s.strip("/")`: drop leading and trailing `/` characters. -/
def stripSlash (s : List Char) : List Char :=
  ((s.dropWhile (· == '/')).reverse.dropWhile (· == '/')).reverse

/-- String-level wrapper for `pyReplace`. -/
def pyReplaceStr (s pat rep : String) : String :=
  ⟨pyReplace pat.data rep.data s.data⟩

/-! ## SHA-384 (FIPS 180-4), over byte lists, with lowercase hex rendering -/

/-- Truncate to a 64-bit word. -/
def w64 (n : Nat) : Nat := n % 18446744073709551616

/-- Modular 64-bit addition. -/
def add64 (a b : Nat) : Nat := w64 (a + b)

/-- Rotate a 64-bit word right by `r` bits. -/
def rotr64 (r x : Nat) : Nat := w64 ((x >>> r) ||| (x <<< (64 - r)))

/-- SHA-512 Ch function (using the XOR identity to avoid bitwise negation). -/
def ch64 (x y z : Nat) : Nat := z ^^^ (x &&& (y ^^^ z))

/-- SHA-512 Maj function. -/
def maj64 (x y z : Nat) : Nat := (x &&& y) ^^^ (x &&& z) ^^^ (y &&& z)

/-- SHA-512 Σ0. -/
def bigSigma0 (x : Nat) : Nat := rotr64 28 x ^^^ rotr64 34 x ^^^ rotr64 39 x

/-- SHA-512 Σ1. -/
def bigSigma1 (x : Nat) : Nat := rotr64 14 x ^^^ rotr64 18 x ^^^ rotr64 41 x

/-- SHA-512 σ0. -/
def smallSigma0 (x : Nat) : Nat := rotr64 1 x ^^^ rotr64 8 x ^^^ (x >>> 7)

/-- SHA-512 σ1. -/
def smallSigma1 (x : Nat) : Nat := rotr64 19 x ^^^ rotr64 61 x ^^^ (x >>> 6)

/-- The 80 SHA-512 round constants. -/
def K512 : List Nat := [
  4794697086780616226, 8158064640168781261, 13096744586834688815,
  16840607885511220156, 4131703408338449720, 6480981068601479193,
  10538285296894168987, 12329834152419229976, 15566598209576043074,
  1334009975649890238, 2608012711638119052, 6128411473006802146,
  8268148722764581231, 9286055187155687089, 11230858885718282805,
  13951009754708518548, 16472876342353939154, 17275323862435702243,
  1135362057144423861, 2597628984639134821, 3308224258029322869,
  5365058923640841347, 6679025012923562964, 8573033837759648693,
  10970295158949994411, 12119686244451234320, 12683024718118986047,
  13788192230050041572, 14330467153632333762, 15395433587784984357,
  489312712824947311, 1452737877330783856, 2861767655752347644,
  3322285676063803686, 5560940570517711597, 5996557281743188959,
  7280758554555802590, 8532644243296465576, 9350256976987008742,
  10552545826968843579, 11727347734174303076, 12113106623233404929,
  14000437183269869457, 14369950271660146224, 15101387698204529176,
  15463397548674623760, 17586052441742319658, 1182934255886127544,
  1847814050463011016, 2177327727835720531, 2830643537854262169,
  3796741975233480872, 4115178125766777443, 5681478168544905931,
  6601373596472566643, 7507060721942968483, 8399075790359081724,
  8693463985226723168, 9568029438360202098, 10144078919501101548,
  10430055236837252648, 11840083180663258601, 13761210420658862357,
  14299343276471374635, 14566680578165727644, 15097957966210449927,
  16922976911328602910, 17689382322260857208, 500013540394364858,
  748580250866718886, 1242879168328830382, 1977374033974150939,
  2944078676154940804, 3659926193048069267, 4368137639120453308,
  4836135668995329356, 5532061633213252278, 6448918945643986474,
  6902733635092675308, 7801388544844847127]

/-- SHA-384 initial hash value (eight 64-bit words). -/
def IV384 : List Nat := [
  14680500436340154072, 7105036623409894663, 10473403895298186519,
  1526699215303891257, 7436329637833083697, 10282925794625328401,
  15784041429090275239, 5167115440072839076]

/-- Append the next message-schedule word (the list already holds `t ≥ 16`
words). -/
def stepW (w : List Nat) : List Nat :=
  let n := w.length
  w ++ [w64 (smallSigma1 (w.getD (n - 2) 0) + w.getD (n - 7) 0 +
             smallSigma0 (w.getD (n - 15) 0) + w.getD (n - 16) 0)]

/-- Iterate a function `n` times. -/
def iterFun {α : Type} (f : α → α) : Nat → α → α
  | 0, a => a
  | k + 1, a => iterFun f k (f a)

/-- Full 80-word message schedule from a 16-word block. -/
def fullW (block : List Nat) : List Nat := iterFun stepW 64 block

/-- One SHA-512 round on the state `[a,b,c,d,e,f,g,h]`. -/
def sha512Round (k w : Nat) (s : List Nat) : List Nat :=
  match s with
  | [a, b, c, d, e, f, g, h] =>
    let t1 := w64 (h + bigSigma1 e + ch64 e f g + k + w)
    let t2 := w64 (bigSigma0 a + maj64 a b c)
    [add64 t1 t2, a, b, c, add64 d t1, e, f, g]
  | other => other

/-- Compress one 16-word block into the running hash. -/
def compressBlock (hs block : List Nat) : List Nat :=
  let w := fullW block
  let s := (K512.zip w).foldl (fun st kw => sha512Round kw.1 kw.2 st) hs
  (hs.zip s).map (fun p => add64 p.1 p.2)

/-- Group a byte list into big-endian 64-bit words (length a multiple of 8). -/
def bytesToWords : List Nat → List Nat
  | b0 :: b1 :: b2 :: b3 :: b4 :: b5 :: b6 :: b7 :: rest =>
    (((((((b0 * 256 + b1) * 256 + b2) * 256 + b3) * 256 + b4) * 256 + b5) * 256
        + b6) * 256 + b7) :: bytesToWords rest
  | _ => []

/-- Fuel-driven worker for `chunks128`. -/
def chunks128F : Nat → List Nat → List (List Nat)
  | _, [] => []
  | 0, _ => []
  | fuel + 1, c :: rest => (c :: rest).take 128 :: chunks128F fuel ((c :: rest).drop 128)

/-- Split into 128-byte chunks. -/
def chunks128 (l : List Nat) : List (List Nat) := chunks128F l.length l

/-- The 16 big-endian length bytes encoding the bit length `8 * L`. -/
def lenBytes (L : Nat) : List Nat :=
  (List.range 16).map (fun i => ((8 * L) >>> (8 * (15 - i))) &&& 255)

/-- SHA-512/384 message padding: `0x80`, zeros to 112 mod 128, 16 length
bytes. -/
def padMsg (msg : List Nat) : List Nat :=
  msg ++ 128 :: List.replicate ((240 - ((msg.length + 1) % 128)) % 128) 0 ++
    lenBytes msg.length

/-- SHA-384 of a byte list: first six words of the final SHA-512-style state
started from `IV384`. -/
def sha384Words (msg : List Nat) : List Nat :=
  (((chunks128 (padMsg msg)).map bytesToWords).foldl compressBlock IV384).take 6

/-- UTF-8 encoding of one character as a byte list. -/
def utf8EncodeChar (c : Char) : List Nat :=
  let n := c.toNat
  if n < 128 then [n]
  else if n < 2048 then [192 ||| (n >>> 6), 128 ||| (n &&& 63)]
  else if n < 65536 then
    [224 ||| (n >>> 12), 128 ||| ((n >>> 6) &&& 63), 128 ||| (n &&& 63)]
  else
    [240 ||| (n >>> 18), 128 ||| ((n >>> 12) &&& 63),
     128 ||| ((n >>> 6) &&& 63), 128 ||| (n &&& 63)]

/-- UTF-8 encoding of a character list. -/
def utf8Bytes (s : List Char) : List Nat := (s.map utf8EncodeChar).flatten

/-- Lowercase hex digit for a nibble. -/
def hexChar (n : Nat) : Char :=
  if n < 10 then Char.ofNat (48 + n) else Char.ofNat (87 + n)

/-- Sixteen lowercase hex characters of a 64-bit word, big-endian. -/
def toHex16 (n : Nat) : List Char :=
  (List.range 16).map (fun i => hexChar ((n >>> (4 * (15 - i))) &&& 15))

/-- Model of Python `hashlib.sha384(s.encode("utf8")).hexdigest()`: lowercase
hexadecimal SHA-384 of the UTF-8 encoding of the string. -/
def sha384HexStr (s : String) : String :=
  ⟨((sha384Words (utf8Bytes s.data)).map toHex16).flatten⟩

/-! ## The plugin data model (plugin.py) -/

/-- The two extra-asset types the plugin handles (keys of `EXTRAS` and
`MINIFIERS` in plugin.py). -/
inductive FileType
  | js
  | css
deriving DecidableEq

/-- The file extension string of an asset type. -/
def FileType.ext : FileType → String
  | .js => "js"
  | .css => "css"

/-- Value of one entry of the minifier-option dictionary (the values in
`DEFAULT_MINIFY_CONFIG` are ints and bools). -/
inductive MVal
  | int (n : Int)
  | bool (b : Bool)
deriving DecidableEq

/-- The module-level `DEFAULT_MINIFY_CONFIG` dictionary (plugin.py lines
52-69), as an association list in insertion order. -/
def DEFAULT_MINIFY_CONFIG : List (String × MVal) := [
  ("css-precision", .int 0),
  ("html-keep-comments", .bool false),
  ("html-keep-conditional-comments", .bool false),
  ("html-keep-default-attr-vals", .bool false),
  ("html-keep-document-tags", .bool false),
  ("html-keep-end-tags", .bool false),
  ("html-keep-whitespace", .bool false),
  ("html-keep-quotes", .bool false),
  ("js-precision", .int 0),
  ("js-keep-var-names", .bool false),
  ("js-version", .int 0),
  ("json-precision", .int 0),
  ("json-keep-numbers", .bool false),
  ("svg-keep-comments", .bool false),
  ("svg-precision", .int 0),
  ("xml-keep-whitespace", .bool false)]

/-- The plugin's validated configuration (`config_scheme`).  The
str-or-list options `js_files` / `css_files` appear after the wrapping into
a list that `_minify` and `_minify_extra_config` perform; `minify_opts`
appears as an association list in insertion order. -/
structure PluginConfig where
  minify_html : Bool
  minify_js : Bool
  minify_css : Bool
  js_files : List String
  css_files : List String
  minify_opts : List (String × MVal)
  cache_safe : Bool

/-- `self.config[f"minify_{file_type}"]`. -/
def minifyFlag (cfg : PluginConfig) : FileType → Bool
  | .js => cfg.minify_js
  | .css => cfg.minify_css

/-- `self.config[f"{file_type}_files"]` (already normalized to a list). -/
def typeFiles (cfg : PluginConfig) : FileType → List String
  | .js => cfg.js_files
  | .css => cfg.css_files

/-- The class-level dictionaries `MinifyPlugin.path_to_hash` and
`MinifyPlugin.path_to_data`, as association lists where the first binding
of a key wins (a fresh insertion shadows an older one, matching Python
dict assignment observationally). -/
structure CacheState where
  path_to_hash : List (String × String)
  path_to_data : List (String × String)
deriving DecidableEq

/-- A cache with no recorded entries. -/
def emptyCache : CacheState := ⟨[], []⟩

/-! ## The plugin operations (plugin.py) -/

/-- `MinifyPlugin._minified_asset` (plugin.py lines 97-101): add
`[.hash][.min].` text to the asset file name.  Python `str.replace`
replaces every occurrence of `.<file_type>`. -/
def minified_asset (cfg : PluginConfig) (file_name : String) (file_type : FileType)
    (file_hash : String) : String :=
  let hash_part : String :=
    if file_hash.data.isEmpty then "" else "." ++ ⟨file_hash.data.take 6⟩
  let min_part : String := if minifyFlag cfg file_type then ".min" else ""
  pyReplaceStr file_name ("." ++ file_type.ext)
    (hash_part ++ min_part ++ "." ++ file_type.ext)

/-- The `cache_safe` body of the loop of `_minify_extra_config` (plugin.py
lines 180-214) for one extra item: read the source file (`docs` maps an
asset path to the text of the source file the path resolution finds),
minify when the flag is set, store data and hash in the cache, and return
the hash to use for renaming (empty when not cache-safe). -/
def recordAsset (cfg : PluginConfig) (mf : String → String) (t : FileType)
    (docs : String → String) (item : String) (st : CacheState) : String × CacheState :=
  if cfg.cache_safe then
    let file_data0 := docs item
    let file_data := if minifyFlag cfg t then mf file_data0 else file_data0
    let file_hash := sha384HexStr file_data
    (file_hash,
      { path_to_hash := (item, file_hash) :: st.path_to_hash,
        path_to_data := (item, file_data) :: st.path_to_data })
  else ("", st)

/-- `MinifyPlugin._minify_extra_config` (plugin.py lines 164-220) for one
asset type: walk the host's extra list, and for every entry that is one of
the configured `<type>_files` record cache data (when `cache_safe`) and
overwrite the entry with the `_minified_asset` name.  Returns the rewritten
extra list and the new cache state. -/
def minifyExtraConfig (cfg : PluginConfig) (mf : String → String) (t : FileType)
    (docs : String → String) : List String → CacheState → List String × CacheState
  | [], st => ([], st)
  | item :: rest, st =>
    if item ∈ typeFiles cfg t then
      let hs := recordAsset cfg mf t docs item st
      let r := minifyExtraConfig cfg mf t docs rest hs.2
      (minified_asset cfg item t hs.1 :: r.1, r.2)
    else
      let r := minifyExtraConfig cfg mf t docs rest st
      (item :: r.1, r.2)

/-- `rel_file_path` computation of `_minify` (plugin.py line 133):
`site_file_path.replace(site_dir, "").strip("/")`. -/
def relOf (site_dir site_file_path : String) : String :=
  ⟨stripSlash (pyReplace site_dir.data [] site_file_path.data)⟩

/-- The loop body of `MinifyPlugin._minify` (plugin.py lines 131-147) for a
single non-glob configured path: write the file's new content (the cached
data when `cache_safe`, a Python `KeyError` — modeled as `none` — when the
cache has no entry; the minified current content otherwise) and rename the
file to the `_minified_asset` name built from the full site path and the
cached hash (empty string when absent).  Returns the written content and
the rename target. -/
def minifyStep (cfg : PluginConfig) (mf : String → String) (t : FileType)
    (st : CacheState) (site_dir file_path diskContent : String) :
    Option (String × String) :=
  let site_file_path := site_dir ++ "/" ++ file_path
  let rel_file_path := relOf site_dir site_file_path
  let newContent : Option String :=
    if cfg.cache_safe then List.lookup rel_file_path st.path_to_data
    else some (mf diskContent)
  match newContent with
  | none => none
  | some c =>
    let file_hash := (List.lookup rel_file_path st.path_to_hash).getD ""
    some (c, minified_asset cfg site_file_path t file_hash)

/-- `MinifyPlugin._minify_html_page` (plugin.py lines 157-162); the
tdewolff `minify.string("text/html", ...)` call is the opaque
`htmlMinifier`. -/
def minify_html_page (cfg : PluginConfig) (htmlMinifier : String → String)
    (output : String) : String :=
  if cfg.minify_html then htmlMinifier output else output

/-- `MinifyPlugin.on_post_page` (plugin.py lines 222-224). -/
def on_post_page (cfg : PluginConfig) (htmlMinifier : String → String)
    (output : String) : String :=
  minify_html_page cfg htmlMinifier output

/-- `MinifyPlugin.on_post_template` (plugin.py lines 226-233). -/
def on_post_template (cfg : PluginConfig) (htmlMinifier : String → String)
    (template_name output_content : String) : String :=
  if template_name.endsWith ".html" then minify_html_page cfg htmlMinifier output_content
  else output_content

/-- Overwrite the value stored under key `k` (Python dict assignment for a
key already present). -/
def setKey (k : String) (v : MVal) (m : List (String × MVal)) : List (String × MVal) :=
  m.map (fun p => if p.1 = k then (p.1, v) else p)

/-- The option-merging loop of `on_pre_build` (plugin.py lines 238-244):
`minify_config` is an alias of the module-level dictionary, and recognized
keys are assigned into it in place; unrecognized keys only warn. -/
def applyMinifyOpts : List (String × MVal) → List (String × MVal) → List (String × MVal)
  | g, [] => g
  | g, (k, v) :: rest =>
    applyMinifyOpts (if (List.lookup k g).isSome then setKey k v g else g) rest

/-- The host-side data a build exposes to the plugin: the two extra-asset
reference lists of the MkDocs config and the resolved source text of each
asset path. -/
structure Host where
  extra_javascript : List String
  extra_css : List String
  docs : String → String

/-- Process-wide mutable state the plugin code keeps between hook calls and
between builds: the class-level cache dictionaries and the module-level
`DEFAULT_MINIFY_CONFIG` dictionary (aliased as `minify_config`). -/
structure ProcessState where
  cache : CacheState
  minify_global : List (String × MVal)

/-- `MinifyPlugin.on_pre_build` (plugin.py lines 235-250): merge
`minify_opts` into the module-level minifier-option dictionary in place,
then run `_minify_extra_config` for js and css when enabled.  Nothing in
the body clears the class-level cache dictionaries, so the incoming cache
is extended, never reset.  Returns the new process state and the mutated
host config. -/
def on_pre_build (cfg : PluginConfig) (mfs : FileType → String → String)
    (host : Host) (ps : ProcessState) : ProcessState × Host :=
  let g := applyMinifyOpts ps.minify_global cfg.minify_opts
  let js_r :=
    if cfg.minify_js || cfg.cache_safe then
      minifyExtraConfig cfg (mfs .js) .js host.docs host.extra_javascript ps.cache
    else (host.extra_javascript, ps.cache)
  let css_r :=
    if cfg.minify_css || cfg.cache_safe then
      minifyExtraConfig cfg (mfs .css) .css host.docs host.extra_css js_r.2
    else (host.extra_css, js_r.2)
  (⟨css_r.2, g⟩, { host with extra_javascript := js_r.1, extra_css := css_r.1 })

/-! ## Spec-side definitions (for refinement comparison) -/

/-- Modelled from the spec: the hash-and-min fragment of section 4.1 — the
first 6 characters of the digest prefixed with a dot (omitted for an empty
digest), followed by the literal text .min when minification is enabled for
the asset type. -/
def specFragment (cfg : PluginConfig) (t : FileType) (digest : String) : String :=
  (if digest.data.isEmpty then "" else "." ++ ⟨digest.data.take 6⟩) ++
  (if minifyFlag cfg t then ".min" else "")

/-- Fuel-driven worker for `specInsertEvery`. -/
def specInsertEveryF (pat frag : List Char) : Nat → List Char → List Char
  | _, [] => []
  | 0, s => s
  | fuel + 1, c :: rest =>
    if startsWithList pat (c :: rest) && !pat.isEmpty then
      frag ++ pat ++ specInsertEveryF pat frag fuel ((c :: rest).drop pat.length)
    else
      c :: specInsertEveryF pat frag fuel rest

/-- Modelled from the spec (corrected placement): insert `frag` immediately
before every left-to-right non-overlapping occurrence of `pat`, leaving all
other characters unchanged. -/
def specInsertEvery (pat frag s : List Char) : List Char :=
  specInsertEveryF pat frag s.length s

/-- Digest consistency of a cache: every recorded hash is the SHA-384 hex
digest of the recorded data stored under the same path. -/
def CacheInv (st : CacheState) : Prop :=
  ∀ p h, List.lookup p st.path_to_hash = some h →
    ∃ d, List.lookup p st.path_to_data = some d ∧ h = sha384HexStr d

/-! ## Lemmas about the string primitives -/

theorem startsWithList_iff (p : List Char) : ∀ s : List Char,
    startsWithList p s = true ↔ p <+: s := by
  induction p with
  | nil =>
    intro s
    simp [startsWithList, List.nil_prefix]
  | cons a ps ih =>
    intro s
    cases s with
    | nil =>
      simp only [startsWithList, Bool.false_eq_true, false_iff]
      intro h
      exact absurd h.length_le (by simp)
    | cons c cs =>
      simp only [startsWithList, Bool.and_eq_true, beq_iff_eq, ih,
        List.cons_prefix_cons]

theorem pyReplaceF_stable (pat rep : List Char) :
    ∀ fuel fuel' s, s.length ≤ fuel → s.length ≤ fuel' →
      pyReplaceF pat rep fuel s = pyReplaceF pat rep fuel' s := by
  intro fuel
  induction fuel with
  | zero =>
    intro fuel' s hs _
    have : s = [] := by
      cases s with
      | nil => rfl
      | cons c cs => simp at hs
    subst this
    cases fuel' <;> rfl
  | succ n ih =>
    intro fuel' s hs hs'
    cases s with
    | nil => cases fuel' <;> rfl
    | cons c cs =>
      have h1 : 1 ≤ fuel' := by
        simp only [List.length_cons] at hs'
        omega
      obtain ⟨m, rfl⟩ : ∃ m, fuel' = m + 1 := ⟨fuel' - 1, by omega⟩
      simp only [pyReplaceF]
      by_cases hc : (startsWithList pat (c :: cs) && !pat.isEmpty) = true
      · rw [hc]
        simp only [if_true]
        have hpat : pat.length ≥ 1 := by
          simp only [Bool.and_eq_true] at hc
          obtain ⟨_, hne⟩ := hc
          cases pat with
          | nil => simp at hne
          | cons a as => simp
        have hlen : ((c :: cs).drop pat.length).length ≤ n := by
          simp only [List.length_drop, List.length_cons]
          simp only [List.length_cons] at hs
          omega
        have hlen' : ((c :: cs).drop pat.length).length ≤ m := by
          simp only [List.length_drop, List.length_cons]
          simp only [List.length_cons] at hs'
          omega
        rw [ih m _ hlen hlen']
      · rw [Bool.not_eq_true] at hc
        rw [hc]
        simp only [if_false, Bool.false_eq_true]
        have hlen : cs.length ≤ n := by
          simp only [List.length_cons] at hs
          omega
        have hlen' : cs.length ≤ m := by
          simp only [List.length_cons] at hs'
          omega
        rw [ih m _ hlen hlen']

theorem pyReplaceF_eq_pyReplace (pat rep : List Char) (fuel : Nat) (s : List Char)
    (h : s.length ≤ fuel) : pyReplaceF pat rep fuel s = pyReplace pat rep s :=
  pyReplaceF_stable pat rep fuel s.length s h (Nat.le_refl _)

theorem pyReplace_nil (pat rep : List Char) : pyReplace pat rep [] = [] := rfl

theorem pyReplace_cons (pat rep : List Char) (c : Char) (rest : List Char) :
    pyReplace pat rep (c :: rest) =
      if startsWithList pat (c :: rest) && !pat.isEmpty then
        rep ++ pyReplace pat rep ((c :: rest).drop pat.length)
      else
        c :: pyReplace pat rep rest := by
  show pyReplaceF pat rep (rest.length + 1) (c :: rest) = _
  simp only [pyReplaceF]
  by_cases hc : (startsWithList pat (c :: rest) && !pat.isEmpty) = true
  · rw [hc]
    simp only [if_true]
    have hpat : pat.length ≥ 1 := by
      simp only [Bool.and_eq_true] at hc
      obtain ⟨_, hne⟩ := hc
      cases pat with
      | nil => simp at hne
      | cons a as => simp
    rw [pyReplaceF_eq_pyReplace]
    simp only [List.length_drop, List.length_cons]
    omega
  · rw [Bool.not_eq_true] at hc
    rw [hc]
    simp only [if_false, Bool.false_eq_true]
    rw [pyReplaceF_eq_pyReplace]
    exact Nat.le_refl _

theorem startsWithList_false_of_occursIn_false (pat s : List Char)
    (h : occursIn pat s = false) (hne : s ≠ []) : startsWithList pat s = false := by
  cases s with
  | nil => exact absurd rfl hne
  | cons c cs =>
    simp only [occursIn, Bool.or_eq_false_iff] at h
    exact h.1

theorem occursIn_tail_false (pat : List Char) (c : Char) (cs : List Char)
    (h : occursIn pat (c :: cs) = false) : occursIn pat cs = false := by
  simp only [occursIn, Bool.or_eq_false_iff] at h
  exact h.2

theorem occursIn_false_of_drop (pat : List Char) (n : Nat) : ∀ s : List Char,
    occursIn pat s = false → occursIn pat (s.drop n) = false := by
  induction n with
  | zero => intro s h; simpa using h
  | succ m ih =>
    intro s h
    cases s with
    | nil => simpa using h
    | cons c cs =>
      rw [List.drop_succ_cons]
      exact ih cs (occursIn_tail_false pat c cs h)

theorem pyReplace_of_occursIn_false (pat rep : List Char) : ∀ s : List Char,
    occursIn pat s = false → pyReplace pat rep s = s := by
  intro s
  induction s with
  | nil => intro _; rfl
  | cons c cs ih =>
    intro h
    rw [pyReplace_cons]
    rw [startsWithList_false_of_occursIn_false pat _ h (by simp)]
    simp only [Bool.false_and, if_false, Bool.false_eq_true]
    rw [ih (occursIn_tail_false pat c cs h)]

theorem startsWithList_append_self (p : List Char) (x : List Char) :
    startsWithList p (p ++ x) = true :=
  (startsWithList_iff p (p ++ x)).mpr ⟨x, rfl⟩

theorem pyReplace_self_head (pat rep : List Char) (hne : pat ≠ []) (rest : List Char) :
    pyReplace pat rep (pat ++ rest) = rep ++ pyReplace pat rep rest := by
  cases pat with
  | nil => exact absurd rfl hne
  | cons p ps =>
    rw [List.cons_append, pyReplace_cons, ← List.cons_append,
      startsWithList_append_self (p :: ps) rest]
    simp only [List.isEmpty_cons, Bool.not_false, Bool.and_true, Bool.and_self, if_true]
    rw [List.drop_left]

theorem startsWithList_of_append_left (pat a b : List Char)
    (h : startsWithList pat a = true) : startsWithList pat (a ++ b) = true := by
  rw [startsWithList_iff] at h ⊢
  exact h.trans (List.prefix_append a b)

theorem length_le_of_startsWith_sep (pat a b : List Char) (sep : Char)
    (hsep : sep ∉ pat) (h : startsWithList pat (a ++ sep :: b) = true) :
    pat.length ≤ a.length := by
  by_contra hlt
  push_neg at hlt
  rw [startsWithList_iff] at h
  obtain ⟨t, ht⟩ := h
  have hget : pat.getD a.length sep = sep := by
    have hlen : a.length < (pat ++ t).length := by
      rw [ht]
      simp
    have h1 : (pat ++ t).getD a.length sep = pat.getD a.length sep := by
      rw [List.getD_eq_getElem _ _ hlen, List.getD_eq_getElem _ _ hlt,
        List.getElem_append_left hlt]
    have h2 : (a ++ sep :: b).getD a.length sep = sep := by
      have hlen2 : a.length < (a ++ sep :: b).length := by simp
      rw [List.getD_eq_getElem _ _ hlen2, List.getElem_append_right (Nat.le_refl _)]
      simp
    rw [← h1, ht]
    exact h2
  apply hsep
  rw [← hget]
  rw [List.getD_eq_getElem _ _ hlt]
  exact List.getElem_mem hlt

theorem startsWithList_shorten (pat a b : List Char)
    (hle : pat.length ≤ a.length) (h : startsWithList pat (a ++ b) = true) :
    startsWithList pat a = true := by
  rw [startsWithList_iff] at h ⊢
  rw [List.prefix_iff_eq_take] at h
  rw [List.take_append_eq_append_take] at h
  rw [Nat.sub_eq_zero_of_le hle] at h
  simp only [List.take_zero, List.append_nil] at h
  rw [h]
  exact List.take_prefix _ _

theorem pyReplace_append_sep (pat rep : List Char) (hne : pat ≠ []) (sep : Char)
    (hsep : sep ∉ pat) : ∀ a b : List Char,
    pyReplace pat rep (a ++ sep :: b) =
      pyReplace pat rep a ++ sep :: pyReplace pat rep b := by
  have hpat1 : 1 ≤ pat.length := by
    cases pat with
    | nil => exact absurd rfl hne
    | cons p ps => simp
  have hhead : ∀ b : List Char, startsWithList pat (sep :: b) = false := by
    intro b
    cases pat with
    | nil => exact absurd rfl hne
    | cons p ps =>
      simp only [startsWithList, Bool.and_eq_false_iff, beq_eq_false_iff_ne]
      left
      intro hp
      exact hsep (hp ▸ List.mem_cons_self p ps)
  suffices H : ∀ n (a b : List Char), a.length ≤ n →
      pyReplace pat rep (a ++ sep :: b) =
        pyReplace pat rep a ++ sep :: pyReplace pat rep b by
    intro a b
    exact H a.length a b (Nat.le_refl _)
  intro n
  induction n with
  | zero =>
    intro a b ha
    have : a = [] := by
      cases a with
      | nil => rfl
      | cons c cs => simp at ha
    subst this
    simp only [List.nil_append, pyReplace_nil]
    rw [pyReplace_cons, hhead b]
    simp [Bool.false_and]
  | succ m ih =>
    intro a b ha
    cases a with
    | nil =>
      simp only [List.nil_append, pyReplace_nil]
      rw [pyReplace_cons, hhead b]
      simp [Bool.false_and]
    | cons c cs =>
      have hnea : (c :: cs : List Char) ≠ [] := by simp
      rw [List.cons_append, pyReplace_cons, ← List.cons_append]
      by_cases hc : startsWithList pat ((c :: cs) ++ sep :: b) = true
      · have hlen : pat.length ≤ (c :: cs).length :=
          length_le_of_startsWith_sep pat (c :: cs) b sep hsep hc
        have hc2 : startsWithList pat (c :: cs) = true :=
          startsWithList_shorten pat (c :: cs) (sep :: b) hlen hc
        rw [hc]
        have hniE : pat.isEmpty = false := by
          cases pat with
          | nil => exact absurd rfl hne
          | cons p ps => rfl
        simp only [hniE, Bool.not_false, Bool.and_true, if_true]
        rw [List.drop_append_eq_append_drop, Nat.sub_eq_zero_of_le hlen,
          List.drop_zero]
        have hdlen : ((c :: cs).drop pat.length).length ≤ m := by
          simp only [List.length_drop, List.length_cons] at *
          omega
        rw [ih _ _ hdlen]
        conv_rhs => rw [pyReplace_cons]
        rw [hc2]
        simp only [hniE, Bool.not_false, Bool.and_true, if_true, List.append_assoc]
      · rw [Bool.not_eq_true] at hc
        rw [hc]
        have hc2 : startsWithList pat (c :: cs) = false := by
          by_contra hcc
          rw [Bool.not_eq_false] at hcc
          rw [startsWithList_of_append_left pat _ (sep :: b) hcc] at hc
          simp at hc
        simp only [Bool.false_and, if_false, Bool.false_eq_true]
        have hclen : cs.length ≤ m := by
          simp only [List.length_cons] at ha
          omega
        rw [ih _ _ hclen]
        conv_rhs => rw [pyReplace_cons]
        rw [hc2]
        simp [Bool.false_and]

theorem dropWhileSlash_eq_self (l : List Char) (h : l.head? ≠ some '/') :
    l.dropWhile (· == '/') = l := by
  cases l with
  | nil => rfl
  | cons c cs =>
    rw [List.dropWhile_cons]
    have hc : (c == '/') = false := by
      simp only [List.head?_cons, ne_eq, Option.some.injEq] at h
      simp [h]
    simp [hc]

theorem stripSlash_slash_cons (rel : List Char) (hhead : rel.head? ≠ some '/')
    (hlast : rel.getLast? ≠ some '/') : stripSlash ('/' :: rel) = rel := by
  unfold stripSlash
  rw [List.dropWhile_cons]
  simp only [beq_self_eq_true, if_true]
  rw [dropWhileSlash_eq_self rel hhead]
  rw [dropWhileSlash_eq_self rel.reverse (by rwa [← List.getLast?_eq_head?_reverse])]
  exact List.reverse_reverse rel

theorem data_append_sep (site_dir rel : String) :
    (site_dir ++ "/" ++ rel).data = site_dir.data ++ '/' :: rel.data := by
  rw [String.data_append, String.data_append]
  have hd : ("/" : String).data = ['/'] := rfl
  rw [hd]
  simp

theorem relOf_correct (site_dir rel : String)
    (hne : site_dir.data ≠ [])
    (hocc : occursIn site_dir.data ('/' :: rel.data) = false)
    (hhead : rel.data.head? ≠ some '/')
    (hlast : rel.data.getLast? ≠ some '/') :
    relOf site_dir (site_dir ++ "/" ++ rel) = rel := by
  unfold relOf
  apply String.ext
  show stripSlash (pyReplace site_dir.data [] (site_dir ++ "/" ++ rel).data) = rel.data
  rw [data_append_sep]
  rw [pyReplace_self_head site_dir.data [] hne]
  rw [pyReplace_of_occursIn_false site_dir.data [] _ hocc]
  rw [List.nil_append]
  exact stripSlash_slash_cons rel.data hhead hlast

theorem ext_pattern_data (t : FileType) :
    ("." ++ FileType.ext t).data = '.' :: (FileType.ext t).data := by
  cases t <;> rfl

theorem ext_pattern_ne_nil (t : FileType) : ("." ++ FileType.ext t).data ≠ [] := by
  cases t <;> decide

theorem slash_not_mem_ext_pattern (t : FileType) :
    '/' ∉ ("." ++ FileType.ext t).data := by
  cases t <;> decide

theorem minified_asset_data (cfg : PluginConfig) (name : String) (t : FileType)
    (file_hash : String) :
    (minified_asset cfg name t file_hash).data =
      pyReplace ("." ++ FileType.ext t).data
        (((if file_hash.data.isEmpty then "" else "." ++ ⟨file_hash.data.take 6⟩) ++
          (if minifyFlag cfg t then ".min" else "") ++ "." ++ FileType.ext t) : String).data
        name.data := rfl

theorem minified_asset_append (cfg : PluginConfig) (t : FileType)
    (file_hash site_dir rel : String)
    (hpat : occursIn ('.' :: (FileType.ext t).data) site_dir.data = false) :
    minified_asset cfg (site_dir ++ "/" ++ rel) t file_hash =
      site_dir ++ "/" ++ minified_asset cfg rel t file_hash := by
  apply String.ext
  rw [minified_asset_data, data_append_sep, data_append_sep, minified_asset_data]
  rw [pyReplace_append_sep _ _ (ext_pattern_ne_nil t) '/'
    (slash_not_mem_ext_pattern t)]
  rw [pyReplace_of_occursIn_false _ _ site_dir.data (by rwa [ext_pattern_data])]

theorem lookup_cons_self {β : Type} (k : String) (v : β) (m : List (String × β)) :
    List.lookup k ((k, v) :: m) = some v := by
  simp [List.lookup_cons]

theorem lookup_cons_ne {β : Type} (k k' : String) (v : β) (m : List (String × β))
    (h : k ≠ k') : List.lookup k ((k', v) :: m) = List.lookup k m := by
  rw [List.lookup_cons]
  have : (k == k') = false := by simp [h]
  simp [this]

/-- The hash `_minify_extra_config` computes for one item (independent of the
cache state it starts from). -/
def assetHash (cfg : PluginConfig) (mf : String → String) (t : FileType)
    (docs : String → String) (item : String) : String :=
  if cfg.cache_safe then
    sha384HexStr (if minifyFlag cfg t then mf (docs item) else docs item)
  else ""

theorem recordAsset_fst (cfg : PluginConfig) (mf : String → String) (t : FileType)
    (docs : String → String) (item : String) (st : CacheState) :
    (recordAsset cfg mf t docs item st).1 = assetHash cfg mf t docs item := by
  by_cases h : cfg.cache_safe <;> simp [recordAsset, assetHash, h]

theorem minifyExtraConfig_frame (cfg : PluginConfig) (mf : String → String)
    (t : FileType) (docs : String → String) :
    ∀ (extra : List String) (st : CacheState) (q : String), q ∉ extra →
      List.lookup q (minifyExtraConfig cfg mf t docs extra st).2.path_to_data =
        List.lookup q st.path_to_data ∧
      List.lookup q (minifyExtraConfig cfg mf t docs extra st).2.path_to_hash =
        List.lookup q st.path_to_hash := by
  intro extra
  induction extra with
  | nil => intro st q _; exact ⟨rfl, rfl⟩
  | cons item rest ih =>
    intro st q hq
    have hqi : q ≠ item := fun h => hq (h ▸ List.mem_cons_self item rest)
    have hqr : q ∉ rest := fun h => hq (List.mem_cons_of_mem item h)
    by_cases hmem : item ∈ typeFiles cfg t
    · simp only [minifyExtraConfig, hmem, if_true]
      refine (ih _ q hqr).imp (fun h1 => h1.trans ?_) (fun h2 => h2.trans ?_)
      · by_cases hcs : cfg.cache_safe
        · simp only [recordAsset, hcs, if_true]
          exact lookup_cons_ne q item _ _ hqi
        · simp [recordAsset, hcs]
      · by_cases hcs : cfg.cache_safe
        · simp only [recordAsset, hcs, if_true]
          exact lookup_cons_ne q item _ _ hqi
        · simp [recordAsset, hcs]
    · simp only [minifyExtraConfig, hmem, if_false]
      exact ih st q hqr

theorem minifyExtraConfig_lookup (cfg : PluginConfig) (mf : String → String)
    (t : FileType) (docs : String → String) (hcs : cfg.cache_safe = true) :
    ∀ (extra : List String) (st : CacheState) (p : String), p ∈ extra →
      p ∈ typeFiles cfg t →
      List.lookup p (minifyExtraConfig cfg mf t docs extra st).2.path_to_data =
        some (if minifyFlag cfg t then mf (docs p) else docs p) ∧
      List.lookup p (minifyExtraConfig cfg mf t docs extra st).2.path_to_hash =
        some (sha384HexStr (if minifyFlag cfg t then mf (docs p) else docs p)) := by
  intro extra
  induction extra with
  | nil => intro st p hp _; exact absurd hp (List.not_mem_nil p)
  | cons item rest ih =>
    intro st p hp hf
    by_cases hpr : p ∈ rest
    · by_cases hmem : item ∈ typeFiles cfg t
      · simp only [minifyExtraConfig, hmem, if_true]
        exact ih _ p hpr hf
      · simp only [minifyExtraConfig, hmem, if_false]
        exact ih st p hpr hf
    · have hpi : p = item := by
        rcases List.mem_cons.mp hp with h | h
        · exact h
        · exact absurd h hpr
      subst hpi
      simp only [minifyExtraConfig, hf, if_true]
      have hframe := minifyExtraConfig_frame cfg mf t docs rest
        (recordAsset cfg mf t docs p st).2 p hpr
      refine ⟨hframe.1.trans ?_, hframe.2.trans ?_⟩
      · simp only [recordAsset, hcs, if_true]
        exact lookup_cons_self p _ _
      · simp only [recordAsset, hcs, if_true]
        exact lookup_cons_self p _ _

theorem minifyExtraConfig_fst (cfg : PluginConfig) (mf : String → String)
    (t : FileType) (docs : String → String) :
    ∀ (extra : List String) (st : CacheState),
      (minifyExtraConfig cfg mf t docs extra st).1 =
        extra.map (fun item =>
          if item ∈ typeFiles cfg t then
            minified_asset cfg item t (assetHash cfg mf t docs item)
          else item) := by
  intro extra
  induction extra with
  | nil => intro st; rfl
  | cons item rest ih =>
    intro st
    by_cases hmem : item ∈ typeFiles cfg t
    · simp only [minifyExtraConfig, hmem, if_true, List.map_cons,
        recordAsset_fst, ih]
    · simp only [minifyExtraConfig, hmem, if_false, List.map_cons, ih]

theorem minifyExtraConfig_preserves_inv (cfg : PluginConfig) (mf : String → String)
    (t : FileType) (docs : String → String) :
    ∀ (extra : List String) (st : CacheState), CacheInv st →
      CacheInv (minifyExtraConfig cfg mf t docs extra st).2 := by
  intro extra
  induction extra with
  | nil => intro st h; exact h
  | cons item rest ih =>
    intro st hInv
    by_cases hmem : item ∈ typeFiles cfg t
    · simp only [minifyExtraConfig, hmem, if_true]
      apply ih
      by_cases hcs : cfg.cache_safe
      · simp only [recordAsset, hcs, if_true]
        intro p h hl
        by_cases hpi : p = item
        · subst hpi
          rw [lookup_cons_self] at hl
          refine ⟨_, lookup_cons_self p _ _, ?_⟩
          exact (Option.some.injEq _ _ ▸ hl).symm
        · rw [lookup_cons_ne p item _ _ hpi] at hl
          obtain ⟨d, hd, he⟩ := hInv p h hl
          exact ⟨d, (lookup_cons_ne p item _ _ hpi).trans hd, he⟩
      · simpa [recordAsset, hcs] using hInv
    · simp only [minifyExtraConfig, hmem, if_false]
      exact ih st hInv

theorem pyReplaceF_eq_specInsertEveryF (pat frag : List Char) :
    ∀ (fuel : Nat) (s : List Char),
      pyReplaceF pat (frag ++ pat) fuel s = specInsertEveryF pat frag fuel s := by
  intro fuel
  induction fuel with
  | zero => intro s; cases s <;> rfl
  | succ m ih =>
    intro s
    cases s with
    | nil => rfl
    | cons c cs =>
      simp only [pyReplaceF, specInsertEveryF]
      by_cases hc : (startsWithList pat (c :: cs) && !pat.isEmpty) = true
      · rw [hc]
        simp only [if_true]
        rw [ih, List.append_assoc]
      · rw [Bool.not_eq_true] at hc
        rw [hc]
        simp only [if_false, Bool.false_eq_true]
        rw [ih]

theorem lookup_setKey_self (k : String) (v : MVal) (m : List (String × MVal))
    (h : (List.lookup k m).isSome = true) :
    List.lookup k (setKey k v m) = some v := by
  induction m with
  | nil => simp [List.lookup] at h
  | cons p rest ih =>
    obtain ⟨k', v'⟩ := p
    show List.lookup k
      ((if k' = k then (k', v) else (k', v')) :: setKey k v rest) = some v
    by_cases hk : k' = k
    · subst hk
      rw [if_pos rfl]
      exact lookup_cons_self k' v _
    · have hk2 : k ≠ k' := fun he => hk he.symm
      rw [if_neg hk, lookup_cons_ne k k' v' _ hk2]
      apply ih
      rwa [lookup_cons_ne k k' v' rest hk2] at h

theorem minifyExtraConfig_snd_no_cache (cfg : PluginConfig) (mf : String → String)
    (t : FileType) (docs : String → String) (hcs : cfg.cache_safe = false) :
    ∀ (extra : List String) (st : CacheState),
      (minifyExtraConfig cfg mf t docs extra st).2 = st := by
  intro extra
  induction extra with
  | nil => intro st; rfl
  | cons item rest ih =>
    intro st
    by_cases hmem : item ∈ typeFiles cfg t
    · simp only [minifyExtraConfig, hmem, if_true]
      rw [ih]
      simp [recordAsset, hcs]
    · simp only [minifyExtraConfig, hmem, if_false]
      exact ih st

/-! ## Concrete configurations used by witnesses and counterexamples -/

/-- A configuration with only JS minification enabled, not cache-safe. -/
def cfgJsOnly : PluginConfig :=
  { minify_html := false, minify_js := true, minify_css := false,
    js_files := [], css_files := [], minify_opts := [], cache_safe := false }

/-- A cache-safe configuration with JS minification and one JS file. -/
def cfgJsCache : PluginConfig :=
  { minify_html := false, minify_js := true, minify_css := false,
    js_files := ["script.js"], css_files := [], minify_opts := [],
    cache_safe := true }

/-- A cache-safe configuration with CSS minification and one CSS file. -/
def cfgCssCache : PluginConfig :=
  { minify_html := false, minify_js := false, minify_css := true,
    js_files := [], css_files := ["style.css"], minify_opts := [],
    cache_safe := true }

/-- JS-minifying, non-cache-safe configuration whose `js_files` lists two
paths. -/
def cfgTwoJs : PluginConfig :=
  { minify_html := false, minify_js := true, minify_css := false,
    js_files := ["a.js", "b.js"], css_files := [], minify_opts := [],
    cache_safe := false }

/-- Cache-safe configuration used to exhibit cross-build cache persistence. -/
def cfgCacheOnly : PluginConfig :=
  { minify_html := false, minify_js := false, minify_css := false,
    js_files := ["a.js"], css_files := [], minify_opts := [],
    cache_safe := true }

/-- Host whose extra_javascript lists the one configured JS asset. -/
def hostA : Host := ⟨["a.js"], [], fun _ => "x"⟩

/-! ## Claim theorems -/

/-- Claim C2, counterexample: the claim predicts that `_minified_asset`
inserts the fragment only before the FIRST occurrence of `.js` and leaves
the rest of the path unchanged, which on the input `a.js.b.js` (with
minification on and no digest) would give `a.min.js.b.js`; the code's
`str.replace` rewrites every occurrence and gives `a.min.js.b.min.js`. -/
theorem C2_counterexample :
    minified_asset cfgJsOnly "a.js.b.js" FileType.js "" = "a.min.js.b.min.js" ∧
    ("a.min.js.b.min.js" : String) ≠ "a.min.js.b.js" := by
  constructor
  · decide
  · decide

/-- Claim C2 (amended): `_minified_asset` returns the path with the
fragment — a dot plus the first 6 characters of the digest (omitted when
the digest is empty) followed by `.min` (omitted when minification is
disabled for the type) — inserted immediately before EVERY left-to-right
non-overlapping occurrence of the substring `.<type>`, leaving the other
characters unchanged. -/
theorem C2_insert_every_occurrence (cfg : PluginConfig) (t : FileType)
    (name digest : String) :
    minified_asset cfg name t digest =
      ⟨specInsertEvery ("." ++ FileType.ext t).data
        (specFragment cfg t digest).data name.data⟩ := by
  apply String.ext
  rw [minified_asset_data]
  have hrep :
      (((if digest.data.isEmpty then "" else "." ++ ⟨digest.data.take 6⟩) ++
        (if minifyFlag cfg t then ".min" else "") ++ "." ++ FileType.ext t) :
          String).data =
        (specFragment cfg t digest).data ++ ("." ++ FileType.ext t).data := by
    simp only [specFragment, String.data_append, List.append_assoc]
  rw [hrep]
  show pyReplaceF ("." ++ FileType.ext t).data _ name.data.length name.data = _
  exact pyReplaceF_eq_specInsertEveryF _ _ _ _

/-- Claim C8: when `minify_html` is false, `on_post_page` and
`on_post_template` return the rendered output byte-for-byte unchanged,
whatever the other settings and the template name are. -/
theorem C8_html_disabled_passthrough (cfg : PluginConfig)
    (htmlMinifier : String → String)
    (page_output template_name template_output : String)
    (h : cfg.minify_html = false) :
    on_post_page cfg htmlMinifier page_output = page_output ∧
    on_post_template cfg htmlMinifier template_name template_output =
      template_output := by
  constructor
  · simp [on_post_page, minify_html_page, h]
  · by_cases ht : template_name.endsWith ".html" <;>
      simp [on_post_template, minify_html_page, h, ht]

theorem C8_witness :
    on_post_page
        { minify_html := false, minify_js := true, minify_css := true,
          js_files := ["a.js"], css_files := ["b.css"], minify_opts := [],
          cache_safe := true } (fun _ => "MINIFIED") "<p> page </p>" =
      "<p> page </p>" ∧
    on_post_template
        { minify_html := false, minify_js := true, minify_css := true,
          js_files := ["a.js"], css_files := ["b.css"], minify_opts := [],
          cache_safe := true } (fun _ => "MINIFIED") "404.html"
        "<p> tmpl </p>" = "<p> tmpl </p>" :=
  C8_html_disabled_passthrough _ (fun _ => "MINIFIED") "<p> page </p>"
    "404.html" "<p> tmpl </p>" rfl

/-- Claim C9: `on_pre_build` assigns recognized `minify_opts` keys into the
module-level `DEFAULT_MINIFY_CONFIG` dictionary itself (the local name
`minify_config` is an alias, not a copy), so an override applied in one
build is still in force in a later build of the same process whose own
configuration omits the key. -/
theorem C9_minify_opts_leak_across_builds (cfg1 cfg2 : PluginConfig)
    (mfs : FileType → String → String) (h1 h2 : Host) (ps : ProcessState)
    (k : String) (v : MVal)
    (hg : ps.minify_global = DEFAULT_MINIFY_CONFIG)
    (hk : (List.lookup k DEFAULT_MINIFY_CONFIG).isSome = true)
    (ho1 : cfg1.minify_opts = [(k, v)])
    (ho2 : cfg2.minify_opts = []) :
    List.lookup k
        ((on_pre_build cfg2 mfs h2 ((on_pre_build cfg1 mfs h1 ps).1)).1).minify_global =
      some v := by
  have hmg : ∀ (cfg : PluginConfig) (mfs2 : FileType → String → String)
      (host : Host) (ps2 : ProcessState),
      ((on_pre_build cfg mfs2 host ps2).1).minify_global =
        applyMinifyOpts ps2.minify_global cfg.minify_opts := fun _ _ _ _ => rfl
  rw [hmg, hmg, hg, ho1, ho2]
  show List.lookup k
      (applyMinifyOpts
        (applyMinifyOpts DEFAULT_MINIFY_CONFIG [(k, v)]) []) = some v
  show List.lookup k (applyMinifyOpts DEFAULT_MINIFY_CONFIG [(k, v)]) = some v
  show List.lookup k
      (applyMinifyOpts
        (if (List.lookup k DEFAULT_MINIFY_CONFIG).isSome then
          setKey k v DEFAULT_MINIFY_CONFIG
        else DEFAULT_MINIFY_CONFIG) []) = some v
  rw [hk]
  show List.lookup k (setKey k v DEFAULT_MINIFY_CONFIG) = some v
  exact lookup_setKey_self k v DEFAULT_MINIFY_CONFIG hk

theorem C9_witness :
    List.lookup "css-precision"
        ((on_pre_build cfgJsOnly (fun _ s => s) hostA
          ((on_pre_build
            { minify_html := false, minify_js := false, minify_css := false,
              js_files := [], css_files := [],
              minify_opts := [("css-precision", MVal.int 5)],
              cache_safe := false } (fun _ s => s) hostA
            ⟨emptyCache, DEFAULT_MINIFY_CONFIG⟩).1)).1).minify_global =
      some (MVal.int 5) :=
  C9_minify_opts_leak_across_builds _ cfgJsOnly (fun _ s => s) hostA hostA
    ⟨emptyCache, DEFAULT_MINIFY_CONFIG⟩ "css-precision" (MVal.int 5) rfl
    (by decide) rfl rfl

/-- Claim C10: a file name that nowhere contains the substring `.<type>`
is returned unchanged by `_minified_asset`, for every minification flag
and every digest value. -/
theorem C10_no_extension_unchanged (cfg : PluginConfig) (t : FileType)
    (name digest : String)
    (h : occursIn ("." ++ FileType.ext t).data name.data = false) :
    minified_asset cfg name t digest = name := by
  apply String.ext
  rw [minified_asset_data]
  exact pyReplace_of_occursIn_false _ _ _ h

theorem C10_witness :
    occursIn ("." ++ FileType.ext FileType.js).data "logo.png".data = false ∧
    minified_asset cfgJsOnly "logo.png" FileType.js "abcdef99" = "logo.png" :=
  ⟨by decide,
    C10_no_extension_unchanged cfgJsOnly FileType.js "logo.png" "abcdef99"
      (by decide)⟩

/-- Claim C5: in cache-safe mode, the materializer step (`_minify` body)
looks the written content up in `path_to_data` under the rebuilt relative
path; when no record for that path was made the step fails with a
key-not-found error (Python `KeyError`, modeled as `none`) instead of
writing empty content, and when the path was recorded the step writes
exactly the recorded content. -/
theorem C5_lookup_contract (cfg : PluginConfig) (mf : String → String)
    (t : FileType) (st : CacheState) (site_dir rel dc : String)
    (hcs : cfg.cache_safe = true)
    (hne : site_dir.data ≠ [])
    (hocc : occursIn site_dir.data ('/' :: rel.data) = false)
    (hhead : rel.data.head? ≠ some '/')
    (hlast : rel.data.getLast? ≠ some '/') :
    (List.lookup rel st.path_to_data = none →
      minifyStep cfg mf t st site_dir rel dc = none) ∧
    (∀ d, List.lookup rel st.path_to_data = some d →
      ∃ nm, minifyStep cfg mf t st site_dir rel dc = some (d, nm)) := by
  have hrel := relOf_correct site_dir rel hne hocc hhead hlast
  constructor
  · intro hnone
    simp [minifyStep, hcs, hrel, hnone]
  · intro d hd
    exact ⟨minified_asset cfg (site_dir ++ "/" ++ rel) t
        ((List.lookup rel st.path_to_hash).getD ""),
      by simp [minifyStep, hcs, hrel, hd]⟩

theorem C5_witness :
    minifyStep cfgJsCache (fun s => s) FileType.js
        ⟨[("a.js", "h123")], [("a.js", "DATA")]⟩ "site" "b.js" "disk" = none ∧
    (∃ nm, minifyStep cfgJsCache (fun s => s) FileType.js
        ⟨[("a.js", "h123")], [("a.js", "DATA")]⟩ "site" "a.js" "disk" =
      some ("DATA", nm)) :=
  ⟨(C5_lookup_contract cfgJsCache (fun s => s) FileType.js
      ⟨[("a.js", "h123")], [("a.js", "DATA")]⟩ "site" "b.js" "disk" rfl
      (by decide) (by decide) (by decide) (by decide)).1 (by decide),
   (C5_lookup_contract cfgJsCache (fun s => s) FileType.js
      ⟨[("a.js", "h123")], [("a.js", "DATA")]⟩ "site" "a.js" "disk" rfl
      (by decide) (by decide) (by decide) (by decide)).2 "DATA" (by decide)⟩

/-- Claim C6: with `cache_safe` on, for every extra entry that is one of
the configured paths the rewriter stores under the original path the
minified source content when `minify_<type>` is on and the verbatim source
content when it is off, and stores as digest the SHA-384 hex of exactly
that stored content. -/
theorem C6_cache_entry_content (cfg : PluginConfig) (mf : String → String)
    (t : FileType) (docs : String → String) (extra : List String)
    (st : CacheState) (p : String)
    (hcs : cfg.cache_safe = true) (hp : p ∈ extra) (hf : p ∈ typeFiles cfg t) :
    List.lookup p (minifyExtraConfig cfg mf t docs extra st).2.path_to_data =
      some (if minifyFlag cfg t then mf (docs p) else docs p) ∧
    List.lookup p (minifyExtraConfig cfg mf t docs extra st).2.path_to_hash =
      some (sha384HexStr (if minifyFlag cfg t then mf (docs p) else docs p)) :=
  minifyExtraConfig_lookup cfg mf t docs hcs extra st p hp hf

theorem C6_witness :
    List.lookup "style.css"
        (minifyExtraConfig cfgCssCache (fun _ => "MINI") FileType.css
          (fun _ => "RAW") ["style.css"] emptyCache).2.path_to_data =
      some (if minifyFlag cfgCssCache FileType.css then "MINI" else "RAW") ∧
    List.lookup "style.css"
        (minifyExtraConfig cfgCssCache (fun _ => "MINI") FileType.css
          (fun _ => "RAW") ["style.css"] emptyCache).2.path_to_hash =
      some (sha384HexStr
        (if minifyFlag cfgCssCache FileType.css then "MINI" else "RAW")) :=
  C6_cache_entry_content cfgCssCache (fun _ => "MINI") FileType.css
    (fun _ => "RAW") ["style.css"] emptyCache "style.css" rfl
    (by decide) (by decide)

set_option maxRecDepth 1000000 in
/-- Claim C3: the digests the rewriter records are the SHA-384 over the
UTF-8 encoding of the stored content rendered as lowercase hex (the cache
invariant `CacheInv` is preserved from any state that satisfies it, in
particular from the empty start-of-build cache); the computation is a pure
function, hence deterministic; and the digest of the literal CSS content
`.ui-hidden{display:none}` begins with `54ca0a60` and ends with `ea171`. -/
theorem C3_digest_consistency (cfg : PluginConfig) (mf : String → String)
    (t : FileType) (docs : String → String) (extra : List String)
    (st : CacheState) (hInv : CacheInv st) :
    CacheInv (minifyExtraConfig cfg mf t docs extra st).2 ∧
    (∀ s1 s2 : String, s1 = s2 → sha384HexStr s1 = sha384HexStr s2) ∧
    (sha384HexStr ".ui-hidden\x7bdisplay:none\x7d").data.take 8 =
      "54ca0a60".data ∧
    (sha384HexStr ".ui-hidden\x7bdisplay:none\x7d").data.drop 91 =
      "ea171".data := by
  refine ⟨minifyExtraConfig_preserves_inv cfg mf t docs extra st hInv,
    fun s1 s2 h => h ▸ rfl, ?_, ?_⟩
  · decide
  · decide

theorem C3_witness :
    (sha384HexStr ".ui-hidden\x7bdisplay:none\x7d").data.take 8 =
      "54ca0a60".data ∧
    (sha384HexStr ".ui-hidden\x7bdisplay:none\x7d").data.drop 91 =
      "ea171".data :=
  ⟨(C3_digest_consistency cfgCssCache (fun s => s) FileType.css
      (fun _ => "RAW") ["style.css"] emptyCache
      (fun p h hl => absurd hl (by simp [emptyCache, List.lookup]))).2.2.1,
   (C3_digest_consistency cfgCssCache (fun s => s) FileType.css
      (fun _ => "RAW") ["style.css"] emptyCache
      (fun p h hl => absurd hl (by simp [emptyCache, List.lookup]))).2.2.2⟩

set_option maxRecDepth 1000000 in
/-- Claim C4 (failing input): run one cache-safe build with
`js_files = ["a.js"]` and `extra_javascript = ["a.js"]`.  `on_pre_build`
records entries in the class-level dictionaries and nothing in the plugin
ever removes them, so the process state handed to the next build's
pre-build still contains the first build's entries — the cache is process
scoped, not build scoped. -/
theorem C4_cache_persists_across_builds :
    List.lookup "a.js"
        ((on_pre_build cfgCacheOnly (fun _ s => s) hostA
          ⟨emptyCache, DEFAULT_MINIFY_CONFIG⟩).1).cache.path_to_data =
      some "x" ∧
    (List.lookup "a.js"
        ((on_pre_build cfgCacheOnly (fun _ s => s) hostA
          ⟨emptyCache, DEFAULT_MINIFY_CONFIG⟩).1).cache.path_to_hash).isSome =
      true := by
  constructor
  · decide
  · decide

/-- Claim C7, counterexample: with `js_files = ["a.js", "b.js"]` and
`minify_js` on, `"a.js"` appears in `js_files` and matches no entry of the
extra list `["b.js"]`, yet the rewriter does NOT leave every entry of the
extra list unchanged — it rewrites `"b.js"`. -/
theorem C7_counterexample :
    cfgTwoJs.minify_js = true ∧
    "a.js" ∈ cfgTwoJs.js_files ∧
    "a.js" ∉ (["b.js"] : List String) ∧
    (minifyExtraConfig cfgTwoJs (fun s => s) FileType.js (fun _ => "")
      ["b.js"] emptyCache).1 ≠ ["b.js"] := by
  refine ⟨rfl, by decide, by decide, ?_⟩
  decide

/-- Claim C7 (amended): if `minify_js` is on and `cache_safe` is off, a
path listed in `js_files` but matching no extra-list entry is still
minified (the written content is the minified disk content) and renamed
(to the standard no-hash minified name) by the materializer step, while
every entry of the extra list that matches no `js_files` path is left
byte-identical by the rewriter. -/
theorem C7_unlisted_asset_still_minified (cfg : PluginConfig)
    (mf : String → String) (docs : String → String) (extra : List String)
    (p site_dir dc : String)
    (hjs : cfg.minify_js = true) (hcs : cfg.cache_safe = false)
    (hpf : p ∈ cfg.js_files) (hpe : p ∉ extra)
    (hne : site_dir.data ≠ [])
    (hocc : occursIn site_dir.data ('/' :: p.data) = false)
    (hhead : p.data.head? ≠ some '/')
    (hlast : p.data.getLast? ≠ some '/')
    (hpat : occursIn ('.' :: (FileType.ext FileType.js).data) site_dir.data =
      false) :
    minifyStep cfg mf FileType.js
        (minifyExtraConfig cfg mf FileType.js docs extra emptyCache).2
        site_dir p dc =
      some (mf dc, site_dir ++ "/" ++ minified_asset cfg p FileType.js "") ∧
    (minifyExtraConfig cfg mf FileType.js docs extra emptyCache).1.length =
      extra.length ∧
    ∀ i, ∀ hi : i < extra.length, extra[i] ∉ cfg.js_files →
      (minifyExtraConfig cfg mf FileType.js docs extra emptyCache).1.getD i "" =
        extra[i] := by
  have hrel := relOf_correct site_dir p hne hocc hhead hlast
  have hsnd := minifyExtraConfig_snd_no_cache cfg mf FileType.js docs hcs
    extra emptyCache
  have hfst := minifyExtraConfig_fst cfg mf FileType.js docs extra emptyCache
  refine ⟨?_, ?_, ?_⟩
  · rw [hsnd]
    simp [minifyStep, hcs, hrel, emptyCache, List.lookup,
      minified_asset_append cfg FileType.js "" site_dir p hpat]
  · rw [hfst, List.length_map]
  · intro i hi hnot
    rw [hfst]
    have hlt : i < (extra.map (fun item =>
        if item ∈ typeFiles cfg FileType.js then
          minified_asset cfg item FileType.js
            (assetHash cfg mf FileType.js docs item)
        else item)).length := by
      rw [List.length_map]
      exact hi
    rw [List.getD_eq_getElem _ _ hlt, List.getElem_map]
    have : extra[i] ∉ typeFiles cfg FileType.js := hnot
    simp [this]

theorem C7_witness :
    minifyStep cfgTwoJs (fun _ => "MIN") FileType.js
        (minifyExtraConfig cfgTwoJs (fun _ => "MIN") FileType.js
          (fun _ => "SRC") ["c.js"] emptyCache).2 "site" "a.js" "CODE" =
      some ("MIN", "site" ++ "/" ++ minified_asset cfgTwoJs "a.js" FileType.js "") ∧
    (minifyExtraConfig cfgTwoJs (fun _ => "MIN") FileType.js (fun _ => "SRC")
      ["c.js"] emptyCache).1.getD 0 "" = "c.js" :=
  ⟨(C7_unlisted_asset_still_minified cfgTwoJs (fun _ => "MIN") (fun _ => "SRC")
      ["c.js"] "a.js" "site" "CODE" rfl rfl (by decide) (by decide) (by decide)
      (by decide) (by decide) (by decide) (by decide)).1,
   (C7_unlisted_asset_still_minified cfgTwoJs (fun _ => "MIN") (fun _ => "SRC")
      ["c.js"] "a.js" "site" "CODE" rfl rfl (by decide) (by decide) (by decide)
      (by decide) (by decide) (by decide) (by decide)).2.2 0 (by decide)
      (by decide)⟩

/-- Claim C1: for every asset type and every combination of `cache_safe`
and `minify_<type>`, the renamed path the rewriter writes into the extra
list during pre-build is byte-identical, as a site-relative path, to the
filename the materializer step produces on disk during post-build for the
same asset in the same build (the full on-disk path is exactly
`site_dir ++ "/" ++` the rewritten list entry). -/
theorem C1_roundtrip_naming (cfg : PluginConfig) (mf : String → String)
    (t : FileType) (docs : String → String) (site_dir rel dc : String)
    (hfile : rel ∈ typeFiles cfg t)
    (hne : site_dir.data ≠ [])
    (hocc : occursIn site_dir.data ('/' :: rel.data) = false)
    (hhead : rel.data.head? ≠ some '/')
    (hlast : rel.data.getLast? ≠ some '/')
    (hpat : occursIn ('.' :: (FileType.ext t).data) site_dir.data = false) :
    ∃ written,
      minifyStep cfg mf t (minifyExtraConfig cfg mf t docs [rel] emptyCache).2
          site_dir rel dc =
        some (written,
          site_dir ++ "/" ++
            (minifyExtraConfig cfg mf t docs [rel] emptyCache).1.headD "") := by
  have hrel := relOf_correct site_dir rel hne hocc hhead hlast
  have hfst := minifyExtraConfig_fst cfg mf t docs [rel] emptyCache
  cases hcs : cfg.cache_safe with
  | false =>
    have hsnd := minifyExtraConfig_snd_no_cache cfg mf t docs hcs [rel]
      emptyCache
    refine ⟨mf dc, ?_⟩
    rw [hsnd, hfst]
    simp only [List.map_cons, List.map_nil, hfile, if_true, List.headD_cons]
    have hah : assetHash cfg mf t docs rel = "" := by simp [assetHash, hcs]
    rw [hah]
    simp [minifyStep, hcs, hrel, emptyCache, List.lookup,
      minified_asset_append cfg t "" site_dir rel hpat]
  | true =>
    have hlk := minifyExtraConfig_lookup cfg mf t docs hcs [rel] emptyCache rel
      (by simp) hfile
    refine ⟨if minifyFlag cfg t then mf (docs rel) else docs rel, ?_⟩
    rw [hfst]
    simp only [List.map_cons, List.map_nil, hfile, if_true, List.headD_cons]
    have hah : assetHash cfg mf t docs rel =
        sha384HexStr (if minifyFlag cfg t then mf (docs rel) else docs rel) := by
      simp [assetHash, hcs]
    rw [hah]
    simp [minifyStep, hcs, hrel, hlk.1, hlk.2,
      minified_asset_append cfg t
        (sha384HexStr (if minifyFlag cfg t then mf (docs rel) else docs rel))
        site_dir rel hpat]

theorem C1_witness :
    ∃ written,
      minifyStep cfgJsCache (fun s => s) FileType.js
          (minifyExtraConfig cfgJsCache (fun s => s) FileType.js
            (fun _ => "SRC") ["script.js"] emptyCache).2
          "site" "script.js" "d" =
        some (written,
          "site" ++ "/" ++
            (minifyExtraConfig cfgJsCache (fun s => s) FileType.js
              (fun _ => "SRC") ["script.js"] emptyCache).1.headD "") :=
  C1_roundtrip_naming cfgJsCache (fun s => s) FileType.js (fun _ => "SRC")
    "site" "script.js" "d" (by decide) (by decide) (by decide) (by decide)
    (by decide) (by decide)
